import Mathlib

/-!
Verification of the cellgc repository: the `gc_heap_type!` derivation
(src/macros.rs) and the Lisp primitive library (lisp/src/builtins.rs).

The development has two parts.

Part 1 (`CellGcLisp`) embeds the primitive procedures of
lisp/src/builtins.rs.  The `Value` type and its heap come from the
repository's vm layer, which is not among the sources, so they are
modelled from the spec (section 6: tagged value shape; section 3: handle
identity by address); each such definition carries a note.  The builtin
bodies themselves are translated line by line from builtins.rs.

Part 2 (`CellGc`) embeds the code generated by the `gc_heap_type!` macro
for an arbitrary declared shape: plain and storage value trees, the
generated `into_heap` / `from_heap` conversions, the generated field
accessors of the reference type, and the generated `mark` functions
running over a heap of slots with one mark bit each.

Definitions come first (both parts), then the theorems.
-/

namespace CellGcLisp

/-- Modelled from the spec: the tagged value shape of the example consumer
(the `Value` enum of the vm layer, not among the sources).  Spec section 6:
variants for empty-list, boolean, integer (32-bit), string (value
equality), pair and vector; pair and vector are reference handles and a
handle is one heap address, equal handles being those with equal addresses
(spec section 3; the handle type itself is the derived reference type of
macros.rs lines 194-198, whose equality is the derived equality of the
wrapped address). -/
inductive Value where
  | Nil
  | Bool (b : Bool)
  | Int (n : Int)
  | Str (s : String)
  | Cons (a : Nat)
  | Vector (a : Nat)
deriving DecidableEq

/-- Modelled from the spec: the pair and vector pools of the heap (the
heap/session engine is not among the sources).  Spec section 3: an
allocation pool maps slot addresses to storage values; allocation hands
out a fresh address, so the model draws addresses from a counter that
every allocation advances (this is what makes two allocations yield
distinct handles, spec section 8, handle identity). -/
structure LispHeap where
  pairs : List (Nat × Value × Value)
  vecs : List (Nat × List Value)
  next : Nat
deriving DecidableEq

/-- Address lookup in the pair pool. -/
def findPair : List (Nat × Value × Value) → Nat → Option (Value × Value)
  | [], _ => none
  | (b, p) :: rest, a => if a = b then some p else findPair rest a

/-- Address lookup in the vector pool. -/
def findVec : List (Nat × List Value) → Nat → Option (List Value)
  | [], _ => none
  | (b, l) :: rest, a => if a = b then some l else findVec rest a

/-- builtins.rs lines 51-57: `eq_question` compares every argument with the
first (`args.get(0)`), with no arity check. -/
def eq_question (h : LispHeap) (args : List Value) :
    Except String Value × LispHeap :=
  (.ok (.Bool (args.all fun arg => some arg == args.head?)), h)

/-- builtins.rs lines 59-69: `eqv_question` requires exactly two arguments
and compares them with the derived equality. -/
def eqv_question (h : LispHeap) (args : List Value) :
    Except String Value × LispHeap :=
  match args with
  | [a, b] => (.ok (.Bool (a == b)), h)
  | _ => (.error "eqv?: exactly 2 arguments required", h)

/-- builtins.rs lines 78-88: `cons` requires exactly two arguments and
allocates a pair; the model gives it the fresh address `h.next`. -/
def cons (h : LispHeap) (args : List Value) :
    Except String Value × LispHeap :=
  match args with
  | [x, y] =>
    (.ok (.Cons h.next),
     { pairs := (h.next, x, y) :: h.pairs, vecs := h.vecs, next := h.next + 1 })
  | _ => (.error "cons: require exactly 2 arguments", h)

/-- builtins.rs lines 90-100: `car`.  The dereference of a live handle
cannot fail (scope-token discipline, spec section 4.1); the `getD` default
is never reached on a heap that contains the handle's address. -/
def car (h : LispHeap) (args : List Value) :
    Except String Value × LispHeap :=
  match args with
  | [v] =>
    match v with
    | .Cons a => (.ok ((findPair h.pairs a).getD (.Nil, .Nil)).1, h)
    | _ => (.error "car: non-pair argument passed to car", h)
  | _ => (.error "car: require exactly 1 argument", h)

/-- builtins.rs lines 102-112: `cdr`.  The arity message says `car`, as in
the source (line 103). -/
def cdr (h : LispHeap) (args : List Value) :
    Except String Value × LispHeap :=
  match args with
  | [v] =>
    match v with
    | .Cons a => (.ok ((findPair h.pairs a).getD (.Nil, .Nil)).2, h)
    | _ => (.error "cdr: non-pair argument passed to cdr", h)
  | _ => (.error "car: require exactly 1 argument", h)

/-- Two's-complement wrap into the i32 range (2147483648 is 2^31 and
4294967296 is 2^32): the release-mode semantics of Rust's `+=` on `i32`
(builtins.rs line 125). -/
def wrap32 (z : Int) : Int := (z + 2147483648) % 4294967296 - 2147483648

/-- builtins.rs lines 121-131, the loop of `add`: accumulate the i32 total,
stopping at the first non-integer argument. -/
def addLoop (total : Int) : List Value → Except String Value
  | [] => .ok (.Int total)
  | v :: vs =>
    match v with
    | .Int n => addLoop (wrap32 (total + n)) vs
    | _ => .error "add: non-numeric argument"

/-- builtins.rs lines 121-131: `add`. -/
def add (h : LispHeap) (args : List Value) :
    Except String Value × LispHeap :=
  (addLoop 0 args, h)

/-- builtins.rs lines 178-180: `vector` allocates its whole argument list,
with no arity check. -/
def vector (h : LispHeap) (args : List Value) :
    Except String Value × LispHeap :=
  (.ok (.Vector h.next),
   { pairs := h.pairs, vecs := (h.next, args) :: h.vecs, next := h.next + 1 })

/-- Modelled from the spec: `Value::as_vector` of the vm layer (not among
the sources) returns the vector handle or a typed error naming the
operation (spec section 4.4: non-vector receivers are typed errors). -/
def asVector (activity : String) (v : Value) : Except String Nat :=
  match v with
  | .Vector a => .ok a
  | _ => .error (activity ++ ": vector expected")

/-- Modelled from the spec: `Value::as_index` of the vm layer (not among
the sources) accepts a nonnegative integer as an index and reports
anything else as a typed error naming the operation. -/
def asIndex (activity : String) (v : Value) : Except String Nat :=
  match v with
  | .Int n => if 0 ≤ n then .ok n.toNat else .error (activity ++ ": negative index")
  | _ => .error (activity ++ ": index expected")

/-- The Rust cast `n as i32` for `n : usize`: keep the low 32 bits, read as
two's complement (the numerals are 2^32, 2^31 and 2^32 again). -/
def natAsI32 (n : Nat) : Int :=
  if n % 4294967296 < 2147483648 then ((n % 4294967296 : Nat) : Int)
  else ((n % 4294967296 : Nat) : Int) - 4294967296

/-- The Rust cast `z as usize` for `z : i32`: sign-extend into the 64-bit
unsigned range (the numeral is 2^64). -/
def i32AsUsize (z : Int) : Nat := (z % 18446744073709551616).toNat

/-- builtins.rs lines 182-193: `vector_length`, with the overflow check
`n as i32 as usize != n`. -/
def vector_length (h : LispHeap) (args : List Value) :
    Except String Value × LispHeap :=
  match args with
  | [v] =>
    match asVector "vector-length" v with
    | .error msg => (.error msg, h)
    | .ok a =>
      let n := ((findVec h.vecs a).getD []).length
      if i32AsUsize (natAsI32 n) ≠ n then
        (.error "vector-length: integer overflow", h)
      else (.ok (.Int (natAsI32 n)), h)
  | _ => (.error "vector-length: exactly 1 argument required", h)

/-- builtins.rs lines 195-207: `vector_ref`.  The source pops the index
argument first, so the index conversion error wins over the receiver
error.  The in-range read of a live vector cannot fail; the `getD` default
is never reached. -/
def vector_ref (h : LispHeap) (args : List Value) :
    Except String Value × LispHeap :=
  match args with
  | [v, idx] =>
    match asIndex "vector-ref" idx with
    | .error msg => (.error msg, h)
    | .ok index =>
      match asVector "vector-ref" v with
      | .error msg => (.error msg, h)
      | .ok a =>
        let l := (findVec h.vecs a).getD []
        if l.length ≤ index then
          (.error ("vector-ref: index out of bounds (got " ++ toString index ++
            ", length " ++ toString l.length ++ ")"), h)
        else (.ok (l.getD index .Nil), h)
  | _ => (.error "vector-ref: exactly 2 arguments required", h)

/-- Following the words of the spec (section 6): eqv?-style equality is
same variant, with payload comparison for the value-typed variants and
address comparison for the reference-typed variants.  Compared with the
derived equality of `Value` in the C6 theorem. -/
def specEqv : Value → Value → Bool
  | .Nil, .Nil => true
  | .Bool a, .Bool b => a == b
  | .Int a, .Int b => a == b
  | .Str a, .Str b => a == b
  | .Cons a, .Cons b => a == b
  | .Vector a, .Vector b => a == b
  | _, _ => false

end CellGcLisp

namespace CellGc

/-- The type of one field of a declared heap type, as accepted by
`gc_heap_type!` (macros.rs): an atomic payload (i32, String, Rc<String>,
passed through conversion unchanged), a reference handle to the struct
with the given index, or a heap enum with the given index embedded by
value (macros.rs doc, lines 40-43: enums are not directly allocated and
appear only as fields). -/
inductive FieldTy where
  | atom
  | ref (s : Nat)
  | enumOf (t : Nat)
deriving DecidableEq

/-- A declared heap struct: its list of field types (macros.rs lines
137-158; field and setter names do not affect the semantics). -/
structure StructDecl where
  fields : List FieldTy
deriving DecidableEq

/-- A declared heap enum: one field-type list per variant (macros.rs lines
585-628; a variant with no fields is the empty list, and named versus
positional fields differ only in surface syntax). -/
structure EnumDecl where
  variants : List (List FieldTy)
deriving DecidableEq

/-- An environment of declared heap types, indexed by position. -/
structure Env where
  structs : List StructDecl
  enums : List EnumDecl

mutual
/-- A plain value (the safe form user code constructs): an atomic payload,
a typed reference handle carrying its address, a struct of fields, or an
enum variant of fields. -/
inductive PVal where
  | atom (n : Nat)
  | ref (a : Nat)
  | strukt (fs : PFields)
  | variant (tag : Nat) (fs : PFields)
inductive PFields where
  | fnil
  | fcons (v : PVal) (fs : PFields)
end

mutual
/-- A storage value (the in-heap form): the same shape with every
reference field reduced to an untyped address (macros.rs lines 143-149,
201: the storage struct has each field type replaced by its In type, and
the In type of a reference is a raw pointer). -/
inductive SVal where
  | atom (n : Nat)
  | addr (a : Nat)
  | strukt (fs : SFields)
  | variant (tag : Nat) (fs : SFields)
inductive SFields where
  | fnil
  | fcons (v : SVal) (fs : SFields)
end

mutual
/-- The generated into_heap: field-wise conversion (struct: macros.rs lines
163-167; reference: lines 203-205, the handle becomes its address; enum:
lines 607-612 with one match arm per variant, lines 466-514, keeping the
variant tag and converting each field; atomic payloads pass through). -/
def into_heap : PVal → SVal
  | .atom n => .atom n
  | .ref a => .addr a
  | .strukt fs => .strukt (intoFields fs)
  | .variant tag fs => .variant tag (intoFields fs)
def intoFields : PFields → SFields
  | .fnil => .fnil
  | .fcons v fs => .fcons (into_heap v) (intoFields fs)
end

mutual
/-- The generated from_heap: the inverse field-wise conversion (struct:
macros.rs lines 178-182; reference: lines 207-209, the address becomes a
handle again; enum: lines 614-619 with one match arm per variant, lines
528-572). -/
def from_heap : SVal → PVal
  | .atom n => .atom n
  | .addr a => .ref a
  | .strukt fs => .strukt (fromFields fs)
  | .variant tag fs => .variant tag (fromFields fs)
def fromFields : SFields → PFields
  | .fnil => .fnil
  | .fcons v fs => .fcons (from_heap v) (fromFields fs)
end

mutual
/-- Whether a plain value is a constructible value of the given field type
in the given environment (the values the declared types admit). -/
def wfP (env : Env) : FieldTy → PVal → Bool
  | .atom, .atom _ => true
  | .ref s, .ref _ => decide (s < env.structs.length)
  | .enumOf t, .variant tag fs =>
    match env.enums.get? t with
    | some ed =>
      match ed.variants.get? tag with
      | some ftys => wfPFields env ftys fs
      | none => false
    | none => false
  | _, _ => false
def wfPFields (env : Env) : List FieldTy → PFields → Bool
  | [], .fnil => true
  | fty :: ftys, .fcons v fs => wfP env fty v && wfPFields env ftys fs
  | _, _ => false
end

/-- Whether a plain value is a constructible instance of the given struct
declaration (the unit of direct allocation). -/
def wfRecord (env : Env) (sd : StructDecl) (v : PVal) : Bool :=
  match v with
  | .strukt fs => wfPFields env sd.fields fs
  | _ => false

mutual
/-- Whether a storage value matches the given field type: the in-heap
counterpart of `wfP` (references are bare addresses in storage). -/
def wfS (env : Env) : FieldTy → SVal → Bool
  | .atom, .atom _ => true
  | .ref s, .addr _ => decide (s < env.structs.length)
  | .enumOf t, .variant tag fs =>
    match env.enums.get? t with
    | some ed =>
      match ed.variants.get? tag with
      | some ftys => wfSFields env ftys fs
      | none => false
    | none => false
  | _, _ => false
def wfSFields (env : Env) : List FieldTy → SFields → Bool
  | [], .fnil => true
  | fty :: ftys, .fcons v fs => wfS env fty v && wfSFields env ftys fs
  | _, _ => false
end

/-- Number of fields of a storage field list. -/
def sfLen : SFields → Nat
  | .fnil => 0
  | .fcons _ fs => 1 + sfLen fs

/-- Field access by position in a storage field list. -/
def sfGet : SFields → Nat → Option SVal
  | .fnil, _ => none
  | .fcons v _, 0 => some v
  | .fcons _ fs, n + 1 => sfGet fs n

/-- Field update by position in a storage field list. -/
def sfSet : SFields → Nat → SVal → SFields
  | .fnil, _, _ => .fnil
  | .fcons _ fs, 0, w => .fcons w fs
  | .fcons v fs, n + 1, w => .fcons v (sfSet fs n w)

/-- Modelled from the spec: the allocation pools and the per-slot mark bit
(the Heap engine with get_mark_bit / set_mark_bit is not among the
sources; spec section 3: a pool maps slot addresses to storage values,
with one mark bit per allocated slot).  Slots hold the storage values of
directly allocated structs; address 0 plays the role of the null pointer
checked by the generated reference mark (macros.rs line 213). -/
structure GcHeap where
  slots : List (Nat × SVal)
  markBit : Nat → Bool

/-- Address lookup in the slot pool (first entry with the address). -/
def findSlot : List (Nat × SVal) → Nat → Option SVal
  | [], _ => none
  | (b, sv) :: rest, a => if a = b then some sv else findSlot rest a

/-- Set the mark bit of one slot (spec section 3: set the first time the
tracer visits the slot). -/
def setBit (h : GcHeap) (a : Nat) : GcHeap :=
  ⟨h.slots, fun x => if x = a then true else h.markBit x⟩

mutual
/-- The generated mark, run with explicit fuel (each call consumes one
unit; the C4 theorem bounds the fuel a heap needs).  The `.addr` case is
the generated reference mark (macros.rs lines 211-216: skip null, then
mark the referent struct) composed with the struct mark's guard (lines
169-176: return at once when the mark bit is set, otherwise set it and
mark every field).  The `.strukt` case marks each field in declaration
order (lines 172-175); the `.variant` case is the arm the enum mark
selects for the value's own variant, marking exactly that variant's
fields (lines 621-626 and 408-453); atomic fields are not traced. -/
def markVal : Nat → GcHeap → SVal → Option GcHeap
  | 0, _, _ => none
  | _ + 1, h, .atom _ => some h
  | fuel + 1, h, .addr a =>
    if a = 0 then some h
    else if h.markBit a then some h
    else
      match findSlot h.slots a with
      | none => none
      | some sv => markVal fuel (setBit h a) sv
  | fuel + 1, h, .strukt fs => markFields fuel h fs
  | fuel + 1, h, .variant _ fs => markFields fuel h fs
def markFields : Nat → GcHeap → SFields → Option GcHeap
  | 0, _, _ => none
  | _ + 1, h, .fnil => some h
  | fuel + 1, h, .fcons v fs =>
    match markVal fuel h v with
    | none => none
    | some h2 => markFields fuel h2 fs
end

mutual
/-- The addresses a storage value holds in reference position: the slots
its marking dereferences. -/
def topAddrs : SVal → List Nat
  | .atom _ => []
  | .addr a => [a]
  | .strukt fs => topAddrsF fs
  | .variant _ fs => topAddrsF fs
def topAddrsF : SFields → List Nat
  | .fnil => []
  | .fcons v fs => topAddrs v ++ topAddrsF fs
end

mutual
/-- Fuel cost of walking one storage value, not counting slot openings
(those are paid for by `phi`). -/
def cost : SVal → Nat
  | .atom _ => 1
  | .addr _ => 2
  | .strukt fs => 1 + costFields fs
  | .variant _ fs => 1 + costFields fs
def costFields : SFields → Nat
  | .fnil => 1
  | .fcons v fs => 1 + cost v + costFields fs
end

/-- Fuel the unmarked entries of a slot list can still consume under the
given mark bits. -/
def phiList (bit : Nat → Bool) (l : List (Nat × SVal)) : Nat :=
  (l.map fun p => if bit p.1 then 0 else 1 + cost p.2).sum

/-- Fuel the unmarked slots of a heap can still consume. -/
def phi (h : GcHeap) : Nat := phiList h.markBit h.slots

/-- One heap extends another when it has the same slots and at least the
same mark bits set: the shape of every marking step. -/
def Extends (h h2 : GcHeap) : Prop :=
  h2.slots = h.slots ∧ ∀ a, h.markBit a = true → h2.markBit a = true

/-- An address the tracer may dereference: null, already marked, or
allocated. -/
def addrOK (h : GcHeap) (a : Nat) : Prop :=
  a = 0 ∨ h.markBit a = true ∨ (findSlot h.slots a).isSome = true

/-- Every reference a storage value holds is dereferenceable. -/
def svalOK (h : GcHeap) (v : SVal) : Prop := ∀ a ∈ topAddrs v, addrOK h a

/-- A closed heap: every stored value only references null or allocated
slots (the object graph is self-contained, as every graph built by alloc
is). -/
def Closed (h : GcHeap) : Prop := ∀ p ∈ h.slots, svalOK h p.2

/-- The generated getter (macros.rs lines 221-227): read the field of the
slot's storage and convert with from_heap. -/
def getField (h : GcHeap) (a i : Nat) : Option PVal :=
  match findSlot h.slots a with
  | some (.strukt fs) => (sfGet fs i).map from_heap
  | _ => none

/-- In-place update of field i of the slot at address a (first entry with
that address; other entries untouched). -/
def setSlotField : List (Nat × SVal) → Nat → Nat → SVal → List (Nat × SVal)
  | [], _, _, _ => []
  | (b, sv) :: rest, a, i, w =>
    if a = b then
      (b, match sv with
          | .strukt fs => SVal.strukt (sfSet fs i w)
          | other => other) :: rest
    else (b, sv) :: setSlotField rest a i w

/-- The generated setter (macros.rs lines 229-235): write into_heap of the
new value into the field, in place. -/
def setField (h : GcHeap) (a i : Nat) (v : PVal) : GcHeap :=
  ⟨setSlotField h.slots a i (into_heap v), h.markBit⟩

end CellGc

namespace CellGcLisp

theorem wrap32_wrap_left (x y : Int) : wrap32 (wrap32 x + y) = wrap32 (x + y) := by
  unfold wrap32
  omega

theorem wrap32_zero : wrap32 0 = 0 := by decide

theorem wrap32_eq_self (z : Int) (h1 : -2147483648 ≤ z) (h2 : z < 2147483648) :
    wrap32 z = z := by
  unfold wrap32
  omega

theorem addLoop_ints (ns : List Int) : ∀ t : Int,
    addLoop (wrap32 t) (ns.map Value.Int) = .ok (.Int (wrap32 (t + ns.sum))) := by
  induction ns with
  | nil => intro t; simp [addLoop]
  | cons n ns ih =>
    intro t
    simp only [List.map_cons, addLoop, List.sum_cons]
    rw [wrap32_wrap_left, ← Int.add_assoc]
    exact ih (t + n)

theorem addLoop_err : ∀ (args : List Value) (t : Int),
    (∃ v ∈ args, ∀ n : Int, v ≠ .Int n) →
    ∃ msg, addLoop t args = .error msg := by
  intro args
  induction args with
  | nil =>
    intro t h
    rcases h with ⟨v, hv, _⟩
    cases hv
  | cons v vs ih =>
    intro t h
    rcases h with ⟨w, hw, hnot⟩
    cases v with
    | Int n =>
      rcases List.mem_cons.mp hw with hv | hv
      · exact absurd hv (hnot n)
      · simpa only [addLoop] using ih (wrap32 (t + n)) ⟨w, hv, hnot⟩
    | Nil => exact ⟨_, rfl⟩
    | Bool b => exact ⟨_, rfl⟩
    | Str s => exact ⟨_, rfl⟩
    | Cons a => exact ⟨_, rfl⟩
    | Vector a => exact ⟨_, rfl⟩

/-- C10: the eq? primitive never reports an arity error: for every argument
list it returns Ok of a boolean that is true exactly when every argument
equals the first, and for zero or one arguments that boolean is true. -/
theorem eq_question_total_spec (h : LispHeap) (args : List Value) :
    eq_question h args =
      (.ok (.Bool (args.all fun arg => some arg == args.head?)), h) ∧
    ((args.all fun arg => some arg == args.head?) = true ↔
      ∀ v ∈ args, some v = args.head?) ∧
    eq_question h [] = (.ok (.Bool true), h) ∧
    ∀ v : Value, eq_question h [v] = (.ok (.Bool true), h) := by
  refine ⟨rfl, ?_, rfl, fun v => ?_⟩
  · simp [List.all_eq_true]
  · simp [eq_question]

/-- C8 counterexample: at add(Int(2147483647), Int(1)) every argument is an
Int, yet the returned payload is the wrapped i32 value -2147483648, not the
integer sum 2147483647 + 1. -/
theorem add_not_integer_sum :
    (add ⟨[], [], 0⟩ [.Int 2147483647, .Int 1]).1 = .ok (.Int (-2147483648)) ∧
    (-2147483648 : Int) ≠ 2147483647 + 1 := by
  constructor
  · rfl
  · decide

/-- C8 amended: when every argument is an Int, add returns the integer sum
reduced into the i32 range by two's-complement wrap-around (so exactly the
integer sum whenever that sum fits in i32, as in add(Int 1, Int 2, Int 3) =
Int 6), and when any argument is not an Int it returns an ordinary Err
value, with the heap unchanged in every case. -/
theorem add_spec (h : LispHeap) (ns : List Int) (args : List Value) :
    (args = ns.map Value.Int → add h args = (.ok (.Int (wrap32 ns.sum)), h)) ∧
    (args = ns.map Value.Int → -2147483648 ≤ ns.sum → ns.sum < 2147483648 →
       add h args = (.ok (.Int ns.sum), h)) ∧
    ((∃ v ∈ args, ∀ n : Int, v ≠ .Int n) →
       ∃ msg, add h args = (.error msg, h)) ∧
    add h [.Int 1, .Int 2, .Int 3] = (.ok (.Int 6), h) := by
  have base : args = ns.map Value.Int →
      add h args = (.ok (.Int (wrap32 ns.sum)), h) := by
    rintro rfl
    have hz := addLoop_ints ns 0
    rw [wrap32_zero, Int.zero_add] at hz
    simp [add, hz]
  refine ⟨base, ?_, ?_, ?_⟩
  · intro hargs hlo hhi
    rw [base hargs, wrap32_eq_self ns.sum hlo hhi]
  · intro hex
    rcases addLoop_err args 0 hex with ⟨msg, hmsg⟩
    exact ⟨msg, by simp [add, hmsg]⟩
  · rfl

/-- C8 witness: the amended statement evaluated at add(Int 1, Int 2, Int 3)
on the empty heap. -/
theorem add_spec_witness :
    add ⟨[], [], 0⟩ [.Int 1, .Int 2, .Int 3] = (.ok (.Int 6), ⟨[], [], 0⟩) :=
  (add_spec ⟨[], [], 0⟩ [1, 2, 3] [.Int 1, .Int 2, .Int 3]).2.1 rfl
    (by decide) (by decide)

theorem natAsI32_small (n : Nat) (h : n < 2147483648) : natAsI32 n = (n : Int) := by
  unfold natAsI32
  split <;> omega

theorem cast_check (n : Nat) (hb : n < 9223372036854775808) :
    i32AsUsize (natAsI32 n) = n ↔ n < 2147483648 := by
  unfold natAsI32 i32AsUsize
  split <;> omega

/-- C9: vector-length of a vector of n elements (n below 2^63, the Rust
bound on any vector that can exist in memory) returns Int n when n fits in
i32 and the size-overflow error otherwise, leaving the heap unchanged. -/
theorem vector_length_spec (h : LispHeap) (a : Nat) (l : List Value)
    (hfind : findVec h.vecs a = some l)
    (hb : l.length < 9223372036854775808) :
    vector_length h [.Vector a] =
      (if l.length < 2147483648 then .ok (.Int (l.length : Int))
       else .error "vector-length: integer overflow", h) := by
  have hc := cast_check l.length hb
  simp only [vector_length, asVector, hfind, Option.getD_some]
  by_cases hn : l.length < 2147483648
  · rw [if_pos hn, if_neg (by simpa using hc.mpr hn), natAsI32_small l.length hn]
  · rw [if_neg hn, if_pos (by simpa using fun he => hn (hc.mp he))]

/-- C9 witness: vector-length of a three-element vector is Int 3. -/
theorem vector_length_spec_witness :
    vector_length ⟨[], [(0, [.Int 1, .Int 2, .Int 3])], 1⟩ [.Vector 0] =
      (.ok (.Int 3), ⟨[], [(0, [.Int 1, .Int 2, .Int 3])], 1⟩) := by
  have := vector_length_spec ⟨[], [(0, [.Int 1, .Int 2, .Int 3])], 1⟩ 0
    [.Int 1, .Int 2, .Int 3] rfl (by decide)
  simpa using this

theorem asVector_err (s : String) (v : Value) (hv : ∀ a, v ≠ .Vector a) :
    asVector s v = .error (s ++ ": vector expected") := by
  cases v with
  | Vector a => exact absurd rfl (hv a)
  | Nil => rfl
  | Bool b => rfl
  | Int n => rfl
  | Str t => rfl
  | Cons a => rfl

/-- C5: the accessor primitives validate shape before dereferencing: car and
cdr on a wrong argument count or a non-pair value return Err, vector-ref on
a wrong argument count, a non-vector receiver, or an index at or beyond the
length returns Err, and in every such case the heap is returned unchanged. -/
theorem accessor_shape_errors (h : LispHeap) :
    (∀ args : List Value, args.length ≠ 1 →
       car h args = (.error "car: require exactly 1 argument", h)) ∧
    (∀ v : Value, (∀ a, v ≠ .Cons a) →
       car h [v] = (.error "car: non-pair argument passed to car", h)) ∧
    (∀ args : List Value, args.length ≠ 1 →
       cdr h args = (.error "car: require exactly 1 argument", h)) ∧
    (∀ v : Value, (∀ a, v ≠ .Cons a) →
       cdr h [v] = (.error "cdr: non-pair argument passed to cdr", h)) ∧
    (∀ args : List Value, args.length ≠ 2 →
       vector_ref h args = (.error "vector-ref: exactly 2 arguments required", h)) ∧
    (∀ v idx : Value, (∀ a, v ≠ .Vector a) →
       ∃ msg, vector_ref h [v, idx] = (.error msg, h)) ∧
    (∀ (a : Nat) (l : List Value) (i : Nat), findVec h.vecs a = some l →
       l.length ≤ i →
       vector_ref h [.Vector a, .Int (i : Int)] =
         (.error ("vector-ref: index out of bounds (got " ++ toString i ++
           ", length " ++ toString l.length ++ ")"), h)) := by
  refine ⟨?_, ?_, ?_, ?_, ?_, ?_, ?_⟩
  · rintro (_ | ⟨v, _ | ⟨w, t⟩⟩) hlen
    · rfl
    · simp at hlen
    · rfl
  · intro v hv
    cases v with
    | Cons a => exact absurd rfl (hv a)
    | Nil => rfl
    | Bool b => rfl
    | Int n => rfl
    | Str s => rfl
    | Vector a => rfl
  · rintro (_ | ⟨v, _ | ⟨w, t⟩⟩) hlen
    · rfl
    · simp at hlen
    · rfl
  · intro v hv
    cases v with
    | Cons a => exact absurd rfl (hv a)
    | Nil => rfl
    | Bool b => rfl
    | Int n => rfl
    | Str s => rfl
    | Vector a => rfl
  · rintro (_ | ⟨v, _ | ⟨w, _ | ⟨u, t⟩⟩⟩) hlen
    · rfl
    · rfl
    · simp at hlen
    · rfl
  · intro v idx hv
    rcases hidx : asIndex "vector-ref" idx with msg | i
    · exact ⟨msg, by simp [vector_ref, hidx]⟩
    · exact ⟨"vector-ref: vector expected",
        by simp [vector_ref, hidx, asVector_err "vector-ref" v hv]⟩
  · intro a l i hfind hle
    have hidx : asIndex "vector-ref" (.Int (i : Int)) = .ok i := by
      simp [asIndex]
    simp only [vector_ref, hidx, asVector, hfind, Option.getD_some,
      if_pos hle]

/-- C5 witness: car with no arguments, and vector-ref at index 0 of the
empty vector, both report errors on a concrete heap. -/
theorem accessor_shape_errors_witness :
    car ⟨[], [], 0⟩ [] = (.error "car: require exactly 1 argument", ⟨[], [], 0⟩) ∧
    vector_ref ⟨[], [(0, [])], 1⟩ [.Vector 0, .Int 0] =
      (.error ("vector-ref: index out of bounds (got " ++ toString 0 ++
        ", length " ++ toString 0 ++ ")"), ⟨[], [(0, [])], 1⟩) := by
  constructor
  · exact (accessor_shape_errors ⟨[], [], 0⟩).1 [] (by decide)
  · have := (accessor_shape_errors ⟨[], [(0, [])], 1⟩).2.2.2.2.2.2 0 [] 0 rfl
      (by decide)
    simpa using this

/-- C6: eqv? of two values is Bool of their equality; that equality is the
same-variant payload/address discipline of `specEqv`; two successive
allocations of (even structurally equal) plain pairs yield handles with
distinct addresses, hence unequal handles; and reading the same reference
field twice from the same parent yields the same handle both times. -/
theorem eqv_and_identity (h : LispHeap) :
    (∀ a b : Value, eqv_question h [a, b] = (.ok (.Bool (a == b)), h)) ∧
    (∀ a b : Value, a = b ↔ specEqv a b = true) ∧
    (∀ x y z w : Value,
       ∃ a1 h1 a2 h2, cons h [x, y] = (.ok (.Cons a1), h1) ∧
         cons h1 [z, w] = (.ok (.Cons a2), h2) ∧
         Value.Cons a1 ≠ Value.Cons a2) ∧
    (∀ (a : Nat) (c d : Value), findPair h.pairs a = some (c, d) →
       car h [.Cons a] = (.ok c, h) ∧ cdr h [.Cons a] = (.ok d, h) ∧
       (car h [.Cons a]).1 = (car ((car h [.Cons a]).2) [.Cons a]).1) := by
  refine ⟨fun a b => rfl, ?_, ?_, ?_⟩
  · intro a b
    cases a <;> cases b <;> simp [specEqv]
  · intro x y z w
    refine ⟨h.next, _, h.next + 1, _, rfl, rfl, ?_⟩
    simp
  · intro a c d hfind
    refine ⟨by simp [car, hfind], by simp [cdr, hfind], rfl⟩

/-- C6 witness: reading the car field of a concrete pair returns the stored
value on an unchanged heap. -/
theorem eqv_and_identity_witness :
    car ⟨[(0, .Int 1, .Nil)], [], 1⟩ [.Cons 0] =
      (.ok (.Int 1), ⟨[(0, .Int 1, .Nil)], [], 1⟩) :=
  ((eqv_and_identity ⟨[(0, .Int 1, .Nil)], [], 1⟩).2.2.2 0 (.Int 1) .Nil rfl).1

end CellGcLisp

namespace CellGc

mutual
theorem from_heap_into_heap : (v : PVal) → from_heap (into_heap v) = v
  | .atom _ => rfl
  | .ref _ => rfl
  | .strukt fs => by rw [into_heap, from_heap, fromFields_intoFields fs]
  | .variant tag fs => by rw [into_heap, from_heap, fromFields_intoFields fs]
theorem fromFields_intoFields : (fs : PFields) → fromFields (intoFields fs) = fs
  | .fnil => rfl
  | .fcons v fs => by
    rw [intoFields, fromFields, from_heap_into_heap v, fromFields_intoFields fs]
end

/-- C1: for every declared heap shape (record or tagged union, arbitrarily
nested) and every constructible plain value v, from_heap (into_heap v) = v,
the equality being structural with reference fields compared by the address
the handle carries. -/
theorem round_trip (env : Env) :
    (∀ (sd : StructDecl) (v : PVal), wfRecord env sd v = true →
       from_heap (into_heap v) = v) ∧
    (∀ (fty : FieldTy) (v : PVal), wfP env fty v = true →
       from_heap (into_heap v) = v) :=
  ⟨fun _ v _ => from_heap_into_heap v, fun _ v _ => from_heap_into_heap v⟩

/-- C1 witness: the round trip evaluated on a record with an atomic field,
a reference field and an embedded enum-variant field, against a concrete
environment that declares that shape. -/
theorem round_trip_witness :
    wfRecord ⟨[⟨[.atom, .ref 0, .enumOf 0]⟩], [⟨[[], [.ref 0]]⟩]⟩
        ⟨[.atom, .ref 0, .enumOf 0]⟩
        (.strukt (.fcons (.atom 7) (.fcons (.ref 3)
          (.fcons (.variant 1 (.fcons (.ref 5) .fnil)) .fnil)))) = true ∧
    from_heap (into_heap (.strukt (.fcons (.atom 7) (.fcons (.ref 3)
        (.fcons (.variant 1 (.fcons (.ref 5) .fnil)) .fnil))))) =
      (.strukt (.fcons (.atom 7) (.fcons (.ref 3)
        (.fcons (.variant 1 (.fcons (.ref 5) .fnil)) .fnil)))) :=
  ⟨by decide,
   (round_trip ⟨[⟨[.atom, .ref 0, .enumOf 0]⟩], [⟨[[], [.ref 0]]⟩]⟩).1
     ⟨[.atom, .ref 0, .enumOf 0]⟩ _ (by decide)⟩

theorem extends_refl (h : GcHeap) : Extends h h := ⟨rfl, fun _ ha => ha⟩

theorem extends_comp {h1 h2 h3 : GcHeap} (a : Extends h1 h2)
    (b : Extends h2 h3) : Extends h1 h3 :=
  ⟨b.1.trans a.1, fun x hx => b.2 x (a.2 x hx)⟩

theorem setBit_slots (h : GcHeap) (a : Nat) : (setBit h a).slots = h.slots := rfl

theorem setBit_self (h : GcHeap) (a : Nat) : (setBit h a).markBit a = true := by
  simp [setBit]

theorem extends_setBit (h : GcHeap) (a : Nat) : Extends h (setBit h a) :=
  ⟨rfl, fun x hx => by simp only [setBit]; split <;> simp [hx]⟩

theorem mark_mono : ∀ fuel : Nat,
    (∀ h v h2, markVal fuel h v = some h2 → Extends h h2) ∧
    (∀ h fs h2, markFields fuel h fs = some h2 → Extends h h2) := by
  intro fuel
  induction fuel with
  | zero =>
    constructor
    · intro h v h2 hx; simp [markVal] at hx
    · intro h fs h2 hx; simp [markFields] at hx
  | succ fuel ih =>
    obtain ⟨ihV, ihF⟩ := ih
    constructor
    · intro h v h2 hx
      cases v with
      | atom n =>
        simp only [markVal, Option.some.injEq] at hx
        exact hx ▸ extends_refl h
      | addr a =>
        rw [markVal] at hx
        split at hx
        · exact (Option.some.injEq _ _ ▸ hx) ▸ extends_refl h
        · split at hx
          · exact (Option.some.injEq _ _ ▸ hx) ▸ extends_refl h
          · split at hx
            · exact absurd hx (by simp)
            · exact extends_comp (extends_setBit h a) (ihV _ _ _ hx)
      | strukt fs =>
        rw [markVal] at hx
        exact ihF _ _ _ hx
      | variant tag fs =>
        rw [markVal] at hx
        exact ihF _ _ _ hx
    · intro h fs h2 hx
      cases fs with
      | fnil =>
        simp only [markFields, Option.some.injEq] at hx
        exact hx ▸ extends_refl h
      | fcons v fs =>
        rw [markFields] at hx
        split at hx
        · exact absurd hx (by simp)
        · rename_i hmid hv
          exact extends_comp (ihV _ _ _ hv) (ihF _ _ _ hx)

theorem cost_pos : ∀ v : SVal, 1 ≤ cost v := by
  intro v
  cases v <;> simp [cost]

theorem costFields_pos : ∀ fs : SFields, 1 ≤ costFields fs := by
  intro fs
  cases fs with
  | fnil => simp [costFields]
  | fcons v fs => simp only [costFields]; omega

theorem mark_post : ∀ fuel : Nat,
    (∀ h v h2, markVal fuel h v = some h2 →
       ∀ a ∈ topAddrs v, a ≠ 0 → h2.markBit a = true) ∧
    (∀ h fs h2, markFields fuel h fs = some h2 →
       ∀ a ∈ topAddrsF fs, a ≠ 0 → h2.markBit a = true) := by
  intro fuel
  induction fuel with
  | zero =>
    constructor
    · intro h v h2 hx; simp [markVal] at hx
    · intro h fs h2 hx; simp [markFields] at hx
  | succ fuel ih =>
    obtain ⟨ihV, ihF⟩ := ih
    constructor
    · intro h v h2 hx a ha h0
      cases v with
      | atom n => simp [topAddrs] at ha
      | addr b =>
        simp only [topAddrs, List.mem_singleton] at ha
        subst ha
        rw [markVal] at hx
        split at hx
        · exact absurd (by assumption) h0
        · split at hx
          · rename_i hb
            obtain rfl : h = h2 := by simpa using hx
            exact hb
          · split at hx
            · exact absurd hx (by simp)
            · have hext := (mark_mono fuel).1 _ _ _ hx
              exact hext.2 a (setBit_self h a)
      | strukt fs =>
        rw [markVal] at hx
        exact ihF _ _ _ hx a ha h0
      | variant tag fs =>
        rw [markVal] at hx
        exact ihF _ _ _ hx a ha h0
    · intro h fs h2 hx a ha h0
      cases fs with
      | fnil => simp [topAddrsF] at ha
      | fcons v fs =>
        rw [markFields] at hx
        split at hx
        · exact absurd hx (by simp)
        · rename_i hmid hv
          simp only [topAddrsF, List.mem_append] at ha
          rcases ha with ha | ha
          · have hbit := ihV _ _ _ hv a ha h0
            exact ((mark_mono fuel).2 _ _ _ hx).2 a hbit
          · exact ihF _ _ _ hx a ha h0

theorem mark_noop : ∀ fuel : Nat,
    (∀ h v, (∀ a ∈ topAddrs v, a ≠ 0 → h.markBit a = true) → cost v ≤ fuel →
       markVal fuel h v = some h) ∧
    (∀ h fs, (∀ a ∈ topAddrsF fs, a ≠ 0 → h.markBit a = true) →
       costFields fs ≤ fuel → markFields fuel h fs = some h) := by
  intro fuel
  induction fuel with
  | zero =>
    constructor
    · intro h v _ hle
      exact absurd hle (by have := cost_pos v; omega)
    · intro h fs _ hle
      exact absurd hle (by have := costFields_pos fs; omega)
  | succ fuel ih =>
    obtain ⟨ihV, ihF⟩ := ih
    constructor
    · intro h v hmarked hle
      cases v with
      | atom n => rfl
      | addr a =>
        by_cases h0 : a = 0
        · simp [markVal, h0]
        · have hb := hmarked a (by simp [topAddrs]) h0
          simp [markVal, h0, hb]
      | strukt fs =>
        rw [markVal]
        exact ihF h fs (by simpa [topAddrs] using hmarked)
          (by simp [cost] at hle; omega)
      | variant tag fs =>
        rw [markVal]
        exact ihF h fs (by simpa [topAddrs] using hmarked)
          (by simp [cost] at hle; omega)
    · intro h fs hmarked hle
      cases fs with
      | fnil => rfl
      | fcons v fs =>
        have hv : markVal fuel h v = some h := by
          refine ihV h v (fun a ha h0 => hmarked a ?_ h0) ?_
          · simp [topAddrsF, ha]
          · have := costFields_pos fs
            simp [costFields] at hle
            omega
        rw [markFields, hv]
        refine ihF h fs (fun a ha h0 => hmarked a ?_ h0) ?_
        · simp [topAddrsF, ha]
        · have := cost_pos v
          simp [costFields] at hle
          omega

/-- C2: tracing is idempotent in mark-bit effect.  When the slot's mark
bit is already set, the tracer returns at once, setting nothing further;
and after any successful trace of a storage value (a directly allocated
struct reached through its reference, or a tagged union embedded by value,
or any other shape), tracing the same value again with enough fuel for its
spine returns the heap unchanged. -/
theorem trace_idempotent :
    (∀ (fuel : Nat) (h : GcHeap) (a : Nat), h.markBit a = true →
       markVal (fuel + 1) h (.addr a) = some h) ∧
    (∀ (fuel fuel2 : Nat) (h : GcHeap) (v : SVal) (h2 : GcHeap),
       markVal fuel h v = some h2 → cost v ≤ fuel2 →
       markVal fuel2 h2 v = some h2) := by
  constructor
  · intro fuel h a hb
    by_cases h0 : a = 0 <;> simp [markVal, h0, hb]
  · intro fuel fuel2 h v h2 hrun hcost
    have hpost := (mark_post fuel).1 h v h2 hrun
    exact (mark_noop fuel2).1 h2 v hpost hcost

/-- C2 witness: on a heap with one unmarked slot that references itself,
the first trace succeeds and marks the slot, and tracing again returns the
marked heap unchanged. -/
theorem trace_idempotent_witness :
    markVal 2
      (setBit ⟨[(1, .strukt (.fcons (.addr 1) .fnil))], fun _ => false⟩ 1)
      (.addr 1) =
    some (setBit ⟨[(1, .strukt (.fcons (.addr 1) .fnil))], fun _ => false⟩ 1) :=
  trace_idempotent.2 5 2 ⟨[(1, .strukt (.fcons (.addr 1) .fnil))], fun _ => false⟩
    (.addr 1) _ rfl (by decide)


theorem wfSFields_len (env : Env) : ∀ (ftys : List FieldTy) (fs : SFields),
    wfSFields env ftys fs = true → sfLen fs = ftys.length := by
  intro ftys
  induction ftys with
  | nil =>
    intro fs hw
    cases fs with
    | fnil => rfl
    | fcons v fs => simp [wfSFields] at hw
  | cons fty ftys ih =>
    intro fs hw
    cases fs with
    | fnil => simp [wfSFields] at hw
    | fcons v fs =>
      simp only [wfSFields, Bool.and_eq_true] at hw
      simp only [sfLen, ih fs hw.2, List.length_cons]
      omega

/-- C3: marking an unmarked slot sets its mark bit and then hands exactly
the fields stored in that slot to the field-marking rule; a struct marks
its declared fields in order; an embedded tagged union is marked through
the match arm of the value's own variant, so exactly that variant's
fields, with tag and arity preserved (one arm per declared variant); and
the wf clauses tie the stored field list one-to-one to the declared one,
so no other field is visited. -/
theorem mark_exact_fields :
    (∀ (fuel : Nat) (h : GcHeap) (a : Nat) (sv : SVal),
       a ≠ 0 → h.markBit a = false → findSlot h.slots a = some sv →
       markVal (fuel + 1) h (.addr a) = markVal fuel (setBit h a) sv ∧
       (setBit h a).markBit a = true) ∧
    (∀ (fuel : Nat) (h : GcHeap) (fs : SFields),
       markVal (fuel + 1) h (.strukt fs) = markFields fuel h fs) ∧
    (∀ (fuel : Nat) (h : GcHeap) (tag : Nat) (fs : SFields),
       markVal (fuel + 1) h (.variant tag fs) = markFields fuel h fs) ∧
    (∀ (env : Env) (ftys : List FieldTy) (fs : SFields),
       wfSFields env ftys fs = true → sfLen fs = ftys.length) ∧
    (∀ (env : Env) (t tag : Nat) (fs : SFields),
       wfS env (.enumOf t) (.variant tag fs) = true →
       ∃ ed ftys, env.enums.get? t = some ed ∧
         ed.variants.get? tag = some ftys ∧ sfLen fs = ftys.length) := by
  refine ⟨?_, ?_, ?_, wfSFields_len, ?_⟩
  · intro fuel h a sv h0 hb hfind
    constructor
    · rw [markVal, if_neg h0, if_neg (by simp [hb]), hfind]
    · exact setBit_self h a
  · intro fuel h fs
    rw [markVal]
  · intro fuel h tag fs
    rw [markVal]
  · intro env t tag fs hw
    rw [wfS] at hw
    split at hw
    · rename_i ed he
      split at hw
      · rename_i ftys hv
        exact ⟨ed, ftys, he, hv, wfSFields_len env ftys fs hw⟩
      · simp at hw
    · simp at hw

/-- C3 witness: a concrete unmarked one-field slot is marked by setting
its bit and then marking exactly its stored field list. -/
theorem mark_exact_fields_witness :
    markVal 4 ⟨[(1, .strukt (.fcons (.atom 0) .fnil))], fun _ => false⟩ (.addr 1) =
      markVal 3
        (setBit ⟨[(1, .strukt (.fcons (.atom 0) .fnil))], fun _ => false⟩ 1)
        (.strukt (.fcons (.atom 0) .fnil)) :=
  (mark_exact_fields.1 3 ⟨[(1, .strukt (.fcons (.atom 0) .fnil))], fun _ => false⟩
    1 (.strukt (.fcons (.atom 0) .fnil)) (by decide) rfl rfl).1


theorem findSlot_mem : ∀ (l : List (Nat × SVal)) (a : Nat) (sv : SVal),
    findSlot l a = some sv → (a, sv) ∈ l := by
  intro l
  induction l with
  | nil => intro a sv hx; simp [findSlot] at hx
  | cons p rest ih =>
    intro a sv hx
    rcases p with ⟨b, sv0⟩
    rw [findSlot] at hx
    split at hx
    · rename_i hab
      obtain rfl : sv0 = sv := by simpa using hx
      subst hab
      exact List.mem_cons_self _ _
    · exact List.mem_cons_of_mem _ (ih a sv hx)

theorem phiList_mono (bit bit2 : Nat → Bool)
    (hb : ∀ a, bit a = true → bit2 a = true) :
    ∀ l, phiList bit2 l ≤ phiList bit l := by
  intro l
  induction l with
  | nil => exact Nat.le_refl 0
  | cons p rest ih =>
    simp only [phiList, List.map_cons, List.sum_cons]
    have hhead : (if bit2 p.1 then 0 else 1 + cost p.2) ≤
        (if bit p.1 then 0 else 1 + cost p.2) := by
      by_cases hp : bit p.1 = true
      · simp [hp, hb p.1 hp]
      · rw [if_neg hp]
        split <;> omega
    exact Nat.add_le_add hhead ih

theorem phiList_open (a : Nat) (sv : SVal) (bit : Nat → Bool)
    (hb : bit a = false) :
    ∀ l, findSlot l a = some sv →
    phiList (fun x => if x = a then true else bit x) l + 1 + cost sv ≤
      phiList bit l := by
  intro l
  induction l with
  | nil => intro hx; simp [findSlot] at hx
  | cons p rest ih =>
    intro hx
    rcases p with ⟨b, sv0⟩
    rw [findSlot] at hx
    simp only [phiList, List.map_cons, List.sum_cons]
    split at hx
    · rename_i hab
      obtain rfl : sv0 = sv := by simpa using hx
      subst hab
      have htail := phiList_mono bit (fun x => if x = a then true else bit x)
        (fun x hx2 => by by_cases hxa : x = a <;> simp [hxa, hx2]) rest
      simp only [phiList] at htail
      simp only [if_pos rfl, hb]
      simp only [Bool.false_eq_true, if_false, if_true]
      omega
    · rename_i hab
      have hba : (if b = a then true else bit b) = bit b := by
        rw [if_neg (fun hba => hab hba.symm)]
      have htail := ih hx
      simp only [phiList] at htail
      simp only [hba]
      omega

theorem addrOK_extends {h h2 : GcHeap} (he : Extends h h2) (a : Nat)
    (ha : addrOK h a) : addrOK h2 a := by
  rcases ha with h0 | hb | hs
  · exact .inl h0
  · exact .inr (.inl (he.2 a hb))
  · exact .inr (.inr (by rw [he.1]; exact hs))

theorem svalOK_extends {h h2 : GcHeap} (he : Extends h h2) {v : SVal}
    (hv : svalOK h v) : svalOK h2 v :=
  fun a ha => addrOK_extends he a (hv a ha)

theorem closed_extends {h h2 : GcHeap} (he : Extends h h2) (hc : Closed h) :
    Closed h2 := by
  intro p hp
  rw [he.1] at hp
  exact svalOK_extends he (hc p hp)

theorem phi_extends {h h2 : GcHeap} (he : Extends h h2) : phi h2 ≤ phi h := by
  unfold phi
  rw [he.1]
  exact phiList_mono h.markBit h2.markBit he.2 h.slots

theorem mark_fuel : ∀ fuel : Nat,
    (∀ h v, Closed h → svalOK h v → cost v + phi h ≤ fuel →
       (markVal fuel h v).isSome = true) ∧
    (∀ h fs, Closed h → (∀ a ∈ topAddrsF fs, addrOK h a) →
       costFields fs + phi h ≤ fuel → (markFields fuel h fs).isSome = true) := by
  intro fuel
  induction fuel with
  | zero =>
    constructor
    · intro h v _ _ hle
      exact absurd hle (by have := cost_pos v; omega)
    · intro h fs _ _ hle
      exact absurd hle (by have := costFields_pos fs; omega)
  | succ fuel ih =>
    obtain ⟨ihV, ihF⟩ := ih
    constructor
    · intro h v hcl hok hle
      cases v with
      | atom n => simp [markVal]
      | addr a =>
        by_cases h0 : a = 0
        · simp [markVal, h0]
        · by_cases hb : h.markBit a = true
          · simp [markVal, h0, hb]
          · have haok := hok a (by simp [topAddrs])
            rcases haok with h0x | hbx | hsx
            · exact absurd h0x h0
            · exact absurd hbx hb
            · rcases Option.isSome_iff_exists.mp hsx with ⟨sv, hsv⟩
              have hmem := findSlot_mem h.slots a sv hsv
              have hsvok := hcl (a, sv) hmem
              have hext := extends_setBit h a
              have hphi := phiList_open a sv h.markBit
                (Bool.not_eq_true _ ▸ hb) h.slots hsv
              have hle1 : cost sv + phi (setBit h a) ≤ fuel := by
                have h2 : phi (setBit h a) =
                    phiList (fun x => if x = a then true else h.markBit x)
                      h.slots := rfl
                simp only [cost] at hle
                unfold phi at *
                omega
              have hres := ihV (setBit h a) sv (closed_extends hext hcl)
                (svalOK_extends hext hsvok) hle1
              rw [markVal, if_neg h0, if_neg (by simp [hb]), hsv]
              exact hres
      | strukt fs =>
        rw [markVal]
        refine ihF h fs hcl (fun a ha => hok a (by simpa [topAddrs] using ha)) ?_
        simp only [cost] at hle
        omega
      | variant tag fs =>
        rw [markVal]
        refine ihF h fs hcl (fun a ha => hok a (by simpa [topAddrs] using ha)) ?_
        simp only [cost] at hle
        omega
    · intro h fs hcl hok hle
      cases fs with
      | fnil => simp [markFields]
      | fcons v fs =>
        have hvok : svalOK h v := fun a ha =>
          hok a (by simp [topAddrsF, ha])
        have hfok : ∀ a ∈ topAddrsF fs, addrOK h a := fun a ha =>
          hok a (by simp [topAddrsF, ha])
        have hle1 : cost v + phi h ≤ fuel := by
          have := costFields_pos fs
          simp only [costFields] at hle
          omega
        have h1some := ihV h v hcl hvok hle1
        rcases Option.isSome_iff_exists.mp h1some with ⟨h2, hh2⟩
        have hext := (mark_mono fuel).1 h v h2 hh2
        have hle2 : costFields fs + phi h2 ≤ fuel := by
          have hphi := phi_extends hext
          have := cost_pos v
          simp only [costFields] at hle
          omega
        have h2some := ihF h2 fs (closed_extends hext hcl)
          (fun a ha => addrOK_extends hext a (hfok a ha)) hle2
        rw [markFields, hh2]
        exact h2some

/-- C4: marking terminates on every finite object graph, cyclic graphs
included: on a closed heap, tracing any allocated root slot succeeds
within fuel 2 + phi h, a bound depending only on the finite heap, because
the mark bit is checked before each slot is opened and a marked slot is
never traversed again, so each slot's fields are walked at most once per
collection cycle. -/
theorem mark_terminates (h : GcHeap) (a : Nat) (hcl : Closed h)
    (hs : (findSlot h.slots a).isSome = true) :
    (markVal (2 + phi h) h (.addr a)).isSome = true := by
  refine (mark_fuel (2 + phi h)).1 h (.addr a) hcl ?_ ?_
  · intro x hx
    simp only [topAddrs, List.mem_singleton] at hx
    subst hx
    exact .inr (.inr hs)
  · simp only [cost]
    omega

/-- C4 witness: the trace of a one-slot cycle (a slot whose field points
back to the slot itself) terminates within the computed fuel bound. -/
theorem mark_terminates_witness :
    (markVal (2 + phi ⟨[(1, .strukt (.fcons (.addr 1) .fnil))], fun _ => false⟩)
      ⟨[(1, .strukt (.fcons (.addr 1) .fnil))], fun _ => false⟩
      (.addr 1)).isSome = true := by
  refine mark_terminates ⟨[(1, .strukt (.fcons (.addr 1) .fnil))], fun _ => false⟩
    1 ?_ rfl
  intro p hp
  simp only [List.mem_singleton] at hp
  subst hp
  intro x hx
  simp only [topAddrs, topAddrsF, List.append_nil, List.mem_singleton] at hx
  subst hx
  exact .inr (.inr rfl)


theorem sfGet_sfSet_eq : ∀ (fs : SFields) (i : Nat) (w : SVal), i < sfLen fs →
    sfGet (sfSet fs i w) i = some w
  | .fnil, i, w, hi => by simp [sfLen] at hi
  | .fcons v fs, 0, w, hi => rfl
  | .fcons v fs, i + 1, w, hi => by
    refine sfGet_sfSet_eq fs i w ?_
    simp only [sfLen] at hi
    omega

theorem sfGet_sfSet_ne : ∀ (fs : SFields) (i j : Nat) (w : SVal), j ≠ i →
    sfGet (sfSet fs i w) j = sfGet fs j
  | .fnil, i, j, w, hj => rfl
  | .fcons v fs, 0, 0, w, hj => absurd rfl hj
  | .fcons v fs, 0, j + 1, w, hj => rfl
  | .fcons v fs, i + 1, 0, w, hj => rfl
  | .fcons v fs, i + 1, j + 1, w, hj =>
    sfGet_sfSet_ne fs i j w (fun hmn => hj (by rw [hmn]))

theorem findSlot_setSlotField_eq :
    ∀ (l : List (Nat × SVal)) (a i : Nat) (w : SVal) (fs : SFields),
    findSlot l a = some (.strukt fs) →
    findSlot (setSlotField l a i w) a = some (.strukt (sfSet fs i w)) := by
  intro l
  induction l with
  | nil => intro a i w fs hx; simp [findSlot] at hx
  | cons p rest ih =>
    intro a i w fs hx
    rcases p with ⟨b, sv⟩
    rw [findSlot] at hx
    by_cases hab : a = b
    · rw [if_pos hab] at hx
      obtain rfl : sv = SVal.strukt fs := by simpa using hx
      simp [setSlotField, findSlot, hab]
    · rw [if_neg hab] at hx
      simp [setSlotField, findSlot, hab, ih a i w fs hx]

theorem findSlot_setSlotField_ne :
    ∀ (l : List (Nat × SVal)) (a b i : Nat) (w : SVal), b ≠ a →
    findSlot (setSlotField l a i w) b = findSlot l b := by
  intro l
  induction l with
  | nil => intro a b i w hba; rfl
  | cons p rest ih =>
    intro a b i w hba
    rcases p with ⟨c, sv⟩
    by_cases hac : a = c
    · subst hac
      have hbc : ¬ b = a := hba
      simp [setSlotField, findSlot, hbc]
    · by_cases hbc : b = c
      · simp [setSlotField, findSlot, hac, hbc]
      · simp [setSlotField, findSlot, hac, hbc, ih a b i w hba]

/-- C7: the generated setter writes into_heap of the new value into field
i of the slot in place: afterwards the generated getter of field i returns
from_heap (into_heap v), every other field of the slot reads unchanged,
every other slot is unchanged, and the mark bits are untouched. -/
theorem setter_getter (h : GcHeap) (a i : Nat) (fs : SFields) (v : PVal)
    (hslot : findSlot h.slots a = some (.strukt fs)) (hi : i < sfLen fs) :
    getField (setField h a i v) a i = some (from_heap (into_heap v)) ∧
    (∀ j, j ≠ i → getField (setField h a i v) a j = getField h a j) ∧
    (∀ b, b ≠ a → findSlot (setField h a i v).slots b = findSlot h.slots b) ∧
    (setField h a i v).markBit = h.markBit := by
  have hupd := findSlot_setSlotField_eq h.slots a i (into_heap v) fs hslot
  refine ⟨?_, ?_, ?_, rfl⟩
  · simp [getField, setField, hupd, sfGet_sfSet_eq fs i (into_heap v) hi]
  · intro j hj
    simp [getField, setField, hupd, hslot,
      sfGet_sfSet_ne fs i j (into_heap v) hj]
  · intro b hb
    exact findSlot_setSlotField_ne h.slots a b i (into_heap v) hb

/-- C7 witness: on a concrete one-slot heap, setting field 0 to a
reference value makes the getter return that value (converted there and
back), with the mark bits untouched. -/
theorem setter_getter_witness :
    getField
      (setField ⟨[(1, .strukt (.fcons (.atom 0) .fnil))], fun _ => false⟩
        1 0 (.ref 9)) 1 0 = some (.ref 9) := by
  have := setter_getter ⟨[(1, .strukt (.fcons (.atom 0) .fnil))], fun _ => false⟩
    1 0 (.fcons (.atom 0) .fnil) (.ref 9) rfl (by decide)
  simpa using this.1

end CellGc
